import Mathlib

/-!
Verification of the tag-reconciliation logic of `cloud/amazon/ec2_elb_tag.py`.

The module's `main` (after region/credential plumbing, which is external)
does: one `DescribeTags` read, builds a tag dictionary from the response,
branches on `state` (`list` / `present` / `absent`), computes a delta over
(key, value) pairs, and issues at most one mutating request (`AddTags` or
`RemoveTags`).  `module.exit_json` / `module.fail_json` terminate the
invocation, so everything after them in the same branch is unreachable.

We embed this shallowly: a `TagSet` is an association list of string pairs
(a Python dict's `.items()`), the remote response is a list of `RawTag`
objects whose `Key` attribute may be absent, and `run` returns the outcome
together with the ordered list of remote calls issued.  Wire encoding of the
request parameters (`Tags.member.N.Key` / `.Value`) is abstracted to the
list of pairs (for `AddTags`) respectively keys (for `RemoveTags`) it
carries.
-/

/-- A `(key, value)` tag pair, one item of a Python dict of tags. -/
abbrev TagPair := String × String

/-- A tag dictionary, as the list of its items.  Keys coming from a Python
dict are unique, but the type does not enforce it; theorems that need
uniqueness hypothesise it. -/
abbrev TagSet := List TagPair

/-- A tag object of the `DescribeTags` response (`boto.ec2.tag.Tag`): the
`Key` attribute may be missing, which the source tests with `hasattr`. -/
structure RawTag where
  key : Option String
  value : String
deriving DecidableEq, Repr

/-- The `state` module parameter (validated by the framework to one of the
three choices). -/
inductive Mode where
  | present
  | absent
  | list
deriving DecidableEq, Repr

/-- A remote API request issued by the module, with the payload it carries. -/
inductive RemoteCall where
  | describeTags (name : String)
  | addTags (name : String) (entries : TagSet)
  | removeTags (name : String) (keys : List String)
deriving DecidableEq, Repr

/-- Invocation outcome: `module.exit_json(changed=..., msg=..., tags=...)`
or `module.fail_json(msg=...)`. -/
inductive Outcome where
  | exited (changed : Bool) (msg : Option String) (tags : Option TagSet)
  | failed (msg : String)
deriving DecidableEq, Repr

/-- Python dict assignment `d[k] = v` on an items list: overwrite in place
when the key exists, append otherwise. -/
def dictInsert (d : TagSet) (k v : String) : TagSet :=
  if d.any (fun p => p.1 = k) then
    d.map (fun p => if p.1 = k then (k, v) else p)
  else
    d ++ [(k, v)]

/-- Builds the current tag dictionary from the describe response, mirroring
the dict comprehension over `current_tags` guarded by `hasattr(tag, ..)`:
tag objects without a `Key` attribute are silently dropped. -/
def buildTagDict (raw : List RawTag) : TagSet :=
  raw.foldl
    (fun acc t =>
      match t.key with
      | some k => dictInsert acc k t.value
      | none => acc)
    []

/-- Python truthiness of the `tags` parameter: `if not tags` fires when the
parameter is missing (`None`) or an empty dict. -/
def tagsProvided : Option TagSet → Bool
  | none => false
  | some l => !l.isEmpty

/-- Present-mode delta, mirroring `dict(set(tags.items()) - set(tagdict.items()))`:
the entries of `desired` whose (key, value) pair is not present verbatim in
`current`. -/
def presentDelta (desired current : TagSet) : TagSet :=
  desired.filter (fun p => decide (p ∉ current))

/-- Absent-mode delta, mirroring `dict(set(tags.items()) & set(tagdict.items()))`:
the entries of `desired` whose (key, value) pair is present verbatim in
`current`. -/
def absentDelta (desired current : TagSet) : TagSet :=
  desired.filter (fun p => decide (p ∈ current))

/-- Rendering of a tag dictionary inside a result message (abstracting
Python's `%s` formatting of a dict). -/
def tagsMsg (d : TagSet) : String :=
  "\x7b" ++ String.intercalate ", " (d.map (fun p => p.1 ++ ": " ++ p.2)) ++ "\x7d"

/-- The core of `main` (`ec2_elb_tag.py` lines 104-138), given the name,
state, the `tags` parameter, and the raw `DescribeTags` response.  Returns
the outcome and the ordered list of remote calls issued.  The
`DescribeTags` read is always issued first (line 107), before the `tags`
presence checks. -/
def run (name : String) (state : Mode) (tags : Option TagSet) (response : List RawTag) :
    Outcome × List RemoteCall :=
  let tagdict := buildTagDict response
  let calls : List RemoteCall := [RemoteCall.describeTags name]
  match state with
  | Mode.list =>
      (Outcome.exited false none (some tagdict), calls)
  | Mode.present =>
      if tagsProvided tags = false then
        (Outcome.failed "tags argument is required when state is present", calls)
      else
        let dictact := presentDelta (tags.getD []) tagdict
        if dictact.isEmpty then
          (Outcome.exited false (some ("Tags already exist in " ++ name ++ ".")) none, calls)
        else
          (Outcome.exited true
            (some ("Tags " ++ tagsMsg dictact ++ " created for ELB " ++ name ++ ".")) none,
           calls ++ [RemoteCall.addTags name dictact])
  | Mode.absent =>
      if tagsProvided tags = false then
        (Outcome.failed "tags argument is required when state is absent", calls)
      else
        let dictact := absentDelta (tags.getD []) tagdict
        if dictact.isEmpty then
          (Outcome.exited false (some "Nothing to remove here. Move along.") none, calls)
        else
          (Outcome.exited true
            (some ("Tags " ++ tagsMsg dictact ++ " removed for ELB " ++ name ++ ".")) none,
           calls ++ [RemoteCall.removeTags name (dictact.map Prod.fst)])

/-- Is a remote call mutating (`AddTags` or `RemoveTags`)? -/
def isMutating : RemoteCall → Bool
  | RemoteCall.describeTags _ => false
  | RemoteCall.addTags _ _ => true
  | RemoteCall.removeTags _ _ => true

/-- Effect of a remote call on the remote tag state (AWS semantics, external
to the module): `AddTags` overwrites/creates each pair, `RemoveTags` deletes
the named keys, `DescribeTags` is a pure read. -/
def applyCall (st : TagSet) (c : RemoteCall) : TagSet :=
  match c with
  | RemoteCall.describeTags _ => st
  | RemoteCall.addTags _ entries => entries.foldl (fun acc p => dictInsert acc p.1 p.2) st
  | RemoteCall.removeTags _ keys => st.filter (fun p => decide (p.1 ∉ keys))

/-- Apply a sequence of remote calls to the remote tag state. -/
def applyCalls (st : TagSet) (cs : List RemoteCall) : TagSet :=
  cs.foldl applyCall st

/-- The `DescribeTags` response a remote whose tag state is `st` produces:
one tag object per pair, each carrying its `Key`. -/
def stateToResponse (st : TagSet) : List RawTag :=
  st.map (fun p => RawTag.mk (some p.1) p.2)

/-- One invocation of the module against a remote in state `st`: outcome,
calls issued, and the remote state after the calls take effect. -/
def runOnState (name : String) (mode : Mode) (tags : Option TagSet) (st : TagSet) :
    Outcome × List RemoteCall × TagSet :=
  let r := run name mode tags (stateToResponse st)
  (r.1, r.2, applyCalls st r.2)

/-! ### Helper lemmas about `dictInsert`, `buildTagDict` and key-uniqueness -/

theorem dictInsert_of_fresh (d : TagSet) (k v : String) (h : k ∉ d.map Prod.fst) :
    dictInsert d k v = d ++ [(k, v)] := by
  unfold dictInsert
  rw [if_neg]
  simp only [List.any_eq_true, decide_eq_true_eq, not_exists]
  intro p hp
  rcases hp with ⟨hp, hk⟩
  exact h (List.mem_map.mpr ⟨p, hp, hk⟩)

theorem mem_dictInsert_self (d : TagSet) (k v : String) : (k, v) ∈ dictInsert d k v := by
  unfold dictInsert
  split
  case isTrue ha =>
    rcases List.any_eq_true.mp ha with ⟨p, hp, hk⟩
    refine List.mem_map.mpr ⟨p, hp, ?_⟩
    simp only [decide_eq_true_eq] at hk
    simp [hk]
  case isFalse ha =>
    exact List.mem_append.mpr (Or.inr (List.mem_singleton.mpr rfl))

theorem mem_dictInsert_of_ne (d : TagSet) (k v : String) (p : TagPair)
    (hp : p ∈ d) (hk : p.1 ≠ k) : p ∈ dictInsert d k v := by
  unfold dictInsert
  split
  · refine List.mem_map.mpr ⟨p, hp, ?_⟩
    simp [hk]
  · exact List.mem_append.mpr (Or.inl hp)

theorem mem_dictInsert_elim (d : TagSet) (k v : String) (p : TagPair)
    (hp : p ∈ dictInsert d k v) : p = (k, v) ∨ p ∈ d := by
  unfold dictInsert at hp
  split at hp
  · rcases List.mem_map.mp hp with ⟨q, hq, he⟩
    by_cases hqk : q.1 = k
    · simp [hqk] at he
      exact Or.inl he.symm
    · simp [hqk] at he
      exact Or.inr (he ▸ hq)
  · rcases List.mem_append.mp hp with h | h
    · exact Or.inr h
    · exact Or.inl (List.mem_singleton.mp h)

theorem keys_dictInsert_nodup (d : TagSet) (k v : String)
    (h : (d.map Prod.fst).Nodup) : ((dictInsert d k v).map Prod.fst).Nodup := by
  unfold dictInsert
  split
  case isTrue ha =>
    have : (d.map (fun p => if p.1 = k then (k, v) else p)).map Prod.fst = d.map Prod.fst := by
      rw [List.map_map]
      refine List.map_congr_left ?_
      intro p _
      by_cases hk : p.1 = k
      · simp [hk]
      · simp [hk]
    rw [this]
    exact h
  case isFalse ha =>
    rw [List.map_append]
    refine List.Nodup.append h (List.nodup_singleton k) ?_
    intro a haa hab
    simp only [List.map_cons, List.map_nil, List.mem_singleton] at hab
    subst hab
    simp only [List.any_eq_true, decide_eq_true_eq, not_exists] at ha
    rcases List.mem_map.mp haa with ⟨p, hp, hk⟩
    exact ha p ⟨hp, hk⟩

theorem foldl_dictInsert_fresh (st : TagSet) :
    ∀ acc : TagSet, (st.map Prod.fst).Nodup →
      (∀ k, k ∈ st.map Prod.fst → k ∉ acc.map Prod.fst) →
      st.foldl (fun acc p => dictInsert acc p.1 p.2) acc = acc ++ st := by
  induction st with
  | nil => intro acc _ _; simp
  | cons p rest ih =>
      intro acc hnd hfresh
      simp only [List.foldl_cons]
      rw [dictInsert_of_fresh acc p.1 p.2 (hfresh p.1 (by simp))]
      rw [ih (acc ++ [(p.1, p.2)]) ?_ ?_]
      · simp
      · simp only [List.map_cons] at hnd
        exact (List.nodup_cons.mp hnd).2
      · intro k hk
        simp only [List.map_append, List.mem_append]
        rintro (h | h)
        · exact hfresh k (by simp [hk]) h
        · simp only [List.map_cons, List.map_nil, List.mem_singleton] at h
          simp only [List.map_cons, List.nodup_cons] at hnd
          exact hnd.1 (h ▸ hk)

theorem buildTagDict_response (st : TagSet) (hnd : (st.map Prod.fst).Nodup) :
    buildTagDict (stateToResponse st) = st := by
  unfold buildTagDict stateToResponse
  rw [List.foldl_map]
  have := foldl_dictInsert_fresh st [] hnd (by intro k _ h; simp at h)
  simpa using this

theorem keys_foldl_dictInsert_nodup (es : TagSet) :
    ∀ st : TagSet, (st.map Prod.fst).Nodup →
      ((es.foldl (fun acc p => dictInsert acc p.1 p.2) st).map Prod.fst).Nodup := by
  induction es with
  | nil => intro st h; simpa using h
  | cons p rest ih =>
      intro st h
      simp only [List.foldl_cons]
      exact ih (dictInsert st p.1 p.2) (keys_dictInsert_nodup st p.1 p.2 h)

theorem mem_foldl_dictInsert_of_ne (es : TagSet) :
    ∀ st : TagSet, ∀ p : TagPair, p ∈ st → (∀ q ∈ es, q.1 ≠ p.1) →
      p ∈ es.foldl (fun acc q => dictInsert acc q.1 q.2) st := by
  induction es with
  | nil => intro st p hp _; simpa using hp
  | cons q rest ih =>
      intro st p hp hne
      simp only [List.foldl_cons]
      refine ih (dictInsert st q.1 q.2) p ?_ ?_
      · exact mem_dictInsert_of_ne st q.1 q.2 p hp (fun h => hne q (by simp) h.symm)
      · intro r hr
        exact hne r (by simp [hr])

theorem mem_foldl_dictInsert_self (es : TagSet) :
    ∀ st : TagSet, (es.map Prod.fst).Nodup → ∀ p : TagPair, p ∈ es →
      p ∈ es.foldl (fun acc q => dictInsert acc q.1 q.2) st := by
  induction es with
  | nil => intro st _ p hp; simp at hp
  | cons q rest ih =>
      intro st hnd p hp
      simp only [List.foldl_cons]
      rcases List.mem_cons.mp hp with h | h
      · subst h
        refine mem_foldl_dictInsert_of_ne rest (dictInsert st p.1 p.2) p ?_ ?_
        · exact mem_dictInsert_self st p.1 p.2
        · intro r hr he
          simp only [List.map_cons, List.nodup_cons] at hnd
          exact hnd.1 (he ▸ List.mem_map.mpr ⟨r, hr, rfl⟩)
      · refine ih (dictInsert st q.1 q.2) ?_ p h
        simp only [List.map_cons, List.nodup_cons] at hnd
        exact hnd.2

theorem keys_filter_nodup (d : TagSet) (f : TagPair → Bool)
    (h : (d.map Prod.fst).Nodup) : ((d.filter f).map Prod.fst).Nodup :=
  List.Nodup.sublist (List.Sublist.map Prod.fst (List.filter_sublist d)) h

theorem nodup_keys_pair_eq (p q : TagPair) (hk : p.1 = q.1) :
    ∀ d : TagSet, (d.map Prod.fst).Nodup → p ∈ d → q ∈ d → p = q := by
  intro d
  induction d with
  | nil => intro _ hp _; simp at hp
  | cons a rest ih =>
      intro hnd hp hq
      simp only [List.map_cons, List.nodup_cons] at hnd
      rcases List.mem_cons.mp hp with h1 | h1 <;> rcases List.mem_cons.mp hq with h2 | h2
      · exact h1.trans h2.symm
      · exfalso
        subst h1
        exact hnd.1 (by rw [hk]; exact List.mem_map.mpr ⟨q, h2, rfl⟩)
      · exfalso
        subst h2
        exact hnd.1 (by rw [← hk]; exact List.mem_map.mpr ⟨p, h1, rfl⟩)
      · exact ih hnd.2 h1 h2

/-! ### Evaluation lemmas for `run`, one per branch of `main` -/

theorem tagsProvided_some_ne (desired : TagSet) (hne : desired ≠ []) :
    tagsProvided (some desired) = true := by
  simp [tagsProvided, List.isEmpty_iff, hne]

theorem run_list_eq (name : String) (tags : Option TagSet) (response : List RawTag) :
    run name Mode.list tags response =
      (Outcome.exited false none (some (buildTagDict response)),
       [RemoteCall.describeTags name]) := rfl

theorem run_present_fail (name : String) (tags : Option TagSet) (response : List RawTag)
    (h : tagsProvided tags = false) :
    run name Mode.present tags response =
      (Outcome.failed "tags argument is required when state is present",
       [RemoteCall.describeTags name]) := by
  simp [run, h]

theorem run_absent_fail (name : String) (tags : Option TagSet) (response : List RawTag)
    (h : tagsProvided tags = false) :
    run name Mode.absent tags response =
      (Outcome.failed "tags argument is required when state is absent",
       [RemoteCall.describeTags name]) := by
  simp [run, h]

theorem run_present_empty (name : String) (desired : TagSet) (response : List RawTag)
    (hne : desired ≠ []) (h : presentDelta desired (buildTagDict response) = []) :
    run name Mode.present (some desired) response =
      (Outcome.exited false (some ("Tags already exist in " ++ name ++ ".")) none,
       [RemoteCall.describeTags name]) := by
  simp [run, tagsProvided_some_ne desired hne, h]

theorem run_present_nonempty (name : String) (desired : TagSet) (response : List RawTag)
    (hne : desired ≠ []) (h : presentDelta desired (buildTagDict response) ≠ []) :
    run name Mode.present (some desired) response =
      (Outcome.exited true
        (some ("Tags " ++ tagsMsg (presentDelta desired (buildTagDict response)) ++
               " created for ELB " ++ name ++ ".")) none,
       [RemoteCall.describeTags name,
        RemoteCall.addTags name (presentDelta desired (buildTagDict response))]) := by
  simp [run, tagsProvided_some_ne desired hne, List.isEmpty_iff, h]

theorem run_absent_empty (name : String) (desired : TagSet) (response : List RawTag)
    (hne : desired ≠ []) (h : absentDelta desired (buildTagDict response) = []) :
    run name Mode.absent (some desired) response =
      (Outcome.exited false (some "Nothing to remove here. Move along.") none,
       [RemoteCall.describeTags name]) := by
  simp [run, tagsProvided_some_ne desired hne, h]

theorem run_absent_nonempty (name : String) (desired : TagSet) (response : List RawTag)
    (hne : desired ≠ []) (h : absentDelta desired (buildTagDict response) ≠ []) :
    run name Mode.absent (some desired) response =
      (Outcome.exited true
        (some ("Tags " ++ tagsMsg (absentDelta desired (buildTagDict response)) ++
               " removed for ELB " ++ name ++ ".")) none,
       [RemoteCall.describeTags name,
        RemoteCall.removeTags name
          ((absentDelta desired (buildTagDict response)).map Prod.fst)]) := by
  simp [run, tagsProvided_some_ne desired hne, List.isEmpty_iff, h]

/-! ### Claim theorems -/

/-- C7: In List mode, for every current tag set, the invocation issues no
mutating call (the trace is exactly the one `DescribeTags` read), leaves the
remote tag state unchanged, and returns `changed = false` together with the
current tags exactly as fetched. -/
theorem list_mode_readonly (name : String) (tags : Option TagSet) (st : TagSet) :
    runOnState name Mode.list tags st =
      (Outcome.exited false none (some (buildTagDict (stateToResponse st))),
       [RemoteCall.describeTags name], st) := rfl

/-- C8: with `current = {A: "1"}` and `desired = {A: "2"}` in Present mode,
the computed delta is exactly `{A: "2"}`: the key already present with a
different value is included in the `AddTags` payload, not skipped by a
key-only diff. -/
theorem value_sensitive_delta :
    presentDelta [("A", "2")] (buildTagDict [RawTag.mk (some "A") "1"]) = [("A", "2")] ∧
    (run "elb" Mode.present (some [("A", "2")]) [RawTag.mk (some "A") "1"]).2 =
      [RemoteCall.describeTags "elb", RemoteCall.addTags "elb" [("A", "2")]] := by
  exact ⟨by decide, by decide⟩

/-- C1: in Present mode (with the non-empty `tags` precondition met), the
delta is the set difference over (key, value) pairs; an empty delta exits
with `changed = false` and the "already exist" message after only the read;
a non-empty delta issues exactly one `AddTags` call carrying exactly the
delta and exits with `changed = true`. -/
theorem present_mode_spec (name : String) (desired : TagSet) (response : List RawTag)
    (hne : desired ≠ []) :
    (∀ p : TagPair, p ∈ presentDelta desired (buildTagDict response) ↔
        p ∈ desired ∧ p ∉ buildTagDict response) ∧
    (presentDelta desired (buildTagDict response) = [] →
      run name Mode.present (some desired) response =
        (Outcome.exited false (some ("Tags already exist in " ++ name ++ ".")) none,
         [RemoteCall.describeTags name])) ∧
    (presentDelta desired (buildTagDict response) ≠ [] →
      run name Mode.present (some desired) response =
        (Outcome.exited true
          (some ("Tags " ++ tagsMsg (presentDelta desired (buildTagDict response)) ++
                 " created for ELB " ++ name ++ ".")) none,
         [RemoteCall.describeTags name,
          RemoteCall.addTags name (presentDelta desired (buildTagDict response))])) := by
  refine ⟨?_, ?_, ?_⟩
  · intro p
    simp [presentDelta, List.mem_filter]
  · intro h
    exact run_present_empty name desired response hne h
  · intro h
    exact run_present_nonempty name desired response hne h

/-- Witness for C1 at `desired = {A: "1", B: "2"}`, `current = {A: "1"}`:
the delta membership law and the single `AddTags` call carrying `{B: "2"}`. -/
theorem present_mode_spec_witness :
    (run "elb" Mode.present (some [("A", "1"), ("B", "2")]) [RawTag.mk (some "A") "1"]).2 =
      [RemoteCall.describeTags "elb", RemoteCall.addTags "elb" [("B", "2")]] := by
  have h := present_mode_spec "elb" [("A", "1"), ("B", "2")] [RawTag.mk (some "A") "1"]
    (by decide)
  rw [h.2.2 (by decide)]
  decide

/-- C2: in Absent mode (with the non-empty `tags` precondition met), the
delta is the set intersection over (key, value) pairs — a requested removal
whose value does not match is silently skipped; an empty delta exits with
`changed = false` and the "nothing to remove" message after only the read;
a non-empty delta issues exactly one `RemoveTags` call carrying exactly the
keys of the delta and exits with `changed = true`. -/
theorem absent_mode_spec (name : String) (desired : TagSet) (response : List RawTag)
    (hne : desired ≠ []) :
    (∀ p : TagPair, p ∈ absentDelta desired (buildTagDict response) ↔
        p ∈ desired ∧ p ∈ buildTagDict response) ∧
    (absentDelta desired (buildTagDict response) = [] →
      run name Mode.absent (some desired) response =
        (Outcome.exited false (some "Nothing to remove here. Move along.") none,
         [RemoteCall.describeTags name])) ∧
    (absentDelta desired (buildTagDict response) ≠ [] →
      run name Mode.absent (some desired) response =
        (Outcome.exited true
          (some ("Tags " ++ tagsMsg (absentDelta desired (buildTagDict response)) ++
                 " removed for ELB " ++ name ++ ".")) none,
         [RemoteCall.describeTags name,
          RemoteCall.removeTags name
            ((absentDelta desired (buildTagDict response)).map Prod.fst)])) := by
  refine ⟨?_, ?_, ?_⟩
  · intro p
    simp [absentDelta, List.mem_filter]
  · intro h
    exact run_absent_empty name desired response hne h
  · intro h
    exact run_absent_nonempty name desired response hne h

/-- Witness for C2 at `desired = {A: "1", B: "9"}`, `current = {A: "1", B: "2"}`:
the value-mismatched removal of `B` is skipped and the single `RemoveTags`
call carries only the key `A`. -/
theorem absent_mode_spec_witness :
    (run "elb" Mode.absent (some [("A", "1"), ("B", "9")])
        [RawTag.mk (some "A") "1", RawTag.mk (some "B") "2"]).2 =
      [RemoteCall.describeTags "elb", RemoteCall.removeTags "elb" ["A"]] := by
  have h := absent_mode_spec "elb" [("A", "1"), ("B", "9")]
    [RawTag.mk (some "A") "1", RawTag.mk (some "B") "2"] (by decide)
  rw [h.2.2 (by decide)]
  decide

/-- C3 counterexample: with mode Present and the `tags` parameter missing,
the invocation does fail with the required-tags error, but the trace already
contains the `DescribeTags` remote read — the failure does not happen
before every remote call, refuting the claim as stated. -/
theorem precondition_before_read_cex :
    (run "elb" Mode.present none []).1 =
      Outcome.failed "tags argument is required when state is present" ∧
    RemoteCall.describeTags "elb" ∈ (run "elb" Mode.present none []).2 := by
  exact ⟨by decide, by decide⟩

/-- C3 amended: with mode Present or Absent and an empty or missing desired
TagSet, the invocation fails with the required-tags error before any
mutating remote call is issued — the trace is exactly the single
`DescribeTags` read, which the code performs before the check. -/
theorem precondition_enforced (name : String) (mode : Mode) (tags : Option TagSet)
    (response : List RawTag) (hempty : tagsProvided tags = false) :
    (mode = Mode.present →
      run name mode tags response =
        (Outcome.failed "tags argument is required when state is present",
         [RemoteCall.describeTags name])) ∧
    (mode = Mode.absent →
      run name mode tags response =
        (Outcome.failed "tags argument is required when state is absent",
         [RemoteCall.describeTags name])) := by
  constructor
  · intro h
    subst h
    exact run_present_fail name tags response hempty
  · intro h
    subst h
    exact run_absent_fail name tags response hempty

/-- Witness for the amended C3 at mode Absent with `tags = None`. -/
theorem precondition_enforced_witness :
    run "elb" Mode.absent none [RawTag.mk (some "A") "1"] =
      (Outcome.failed "tags argument is required when state is absent",
       [RemoteCall.describeTags "elb"]) :=
  (precondition_enforced "elb" Mode.absent none [RawTag.mk (some "A") "1"] (by decide)).2 rfl

/-- C4: for every input, the trace contains at most one mutating call, never
both an `AddTags` and a `RemoveTags`, and a mutating call is only present
when the corresponding delta is non-empty. -/
theorem single_mutating_call (name : String) (mode : Mode) (tags : Option TagSet)
    (response : List RawTag) :
    ((run name mode tags response).2.countP (fun c => isMutating c)) ≤ 1 ∧
    ¬ ((∃ n e, RemoteCall.addTags n e ∈ (run name mode tags response).2) ∧
       (∃ n ks, RemoteCall.removeTags n ks ∈ (run name mode tags response).2)) ∧
    (∀ n e, RemoteCall.addTags n e ∈ (run name mode tags response).2 →
      presentDelta (tags.getD []) (buildTagDict response) ≠ []) ∧
    (∀ n ks, RemoteCall.removeTags n ks ∈ (run name mode tags response).2 →
      absentDelta (tags.getD []) (buildTagDict response) ≠ []) := by
  cases mode with
  | list =>
      rw [run_list_eq]
      refine ⟨by simp [isMutating], ?_, ?_, ?_⟩
      · rintro ⟨⟨n, e, hmem⟩, -⟩
        simp at hmem
      · intro n e hmem
        simp at hmem
      · intro n ks hmem
        simp at hmem
  | present =>
      by_cases hp : tagsProvided tags = false
      · rw [run_present_fail name tags response hp]
        refine ⟨by simp [isMutating], ?_, ?_, ?_⟩
        · rintro ⟨⟨n, e, hmem⟩, -⟩
          simp at hmem
        · intro n e hmem
          simp at hmem
        · intro n ks hmem
          simp at hmem
      · obtain ⟨desired, rfl⟩ : ∃ d, tags = some d := by
          cases tags with
          | none => exact absurd rfl hp
          | some d => exact ⟨d, rfl⟩
        have hne : desired ≠ [] := by
          intro h
          subst h
          exact hp rfl
        by_cases hdel : presentDelta desired (buildTagDict response) = []
        · rw [run_present_empty name desired response hne hdel]
          refine ⟨by simp [isMutating], ?_, ?_, ?_⟩
          · rintro ⟨⟨n, e, hmem⟩, -⟩
            simp at hmem
          · intro n e hmem
            simp at hmem
          · intro n ks hmem
            simp at hmem
        · rw [run_present_nonempty name desired response hne hdel]
          refine ⟨by simp [List.countP_cons, isMutating], ?_, ?_, ?_⟩
          · rintro ⟨-, ⟨n, ks, hmem⟩⟩
            simp at hmem
          · intro n e hmem
            simpa using hdel
          · intro n ks hmem
            simp at hmem
  | absent =>
      by_cases hp : tagsProvided tags = false
      · rw [run_absent_fail name tags response hp]
        refine ⟨by simp [isMutating], ?_, ?_, ?_⟩
        · rintro ⟨⟨n, e, hmem⟩, -⟩
          simp at hmem
        · intro n e hmem
          simp at hmem
        · intro n ks hmem
          simp at hmem
      · obtain ⟨desired, rfl⟩ : ∃ d, tags = some d := by
          cases tags with
          | none => exact absurd rfl hp
          | some d => exact ⟨d, rfl⟩
        have hne : desired ≠ [] := by
          intro h
          subst h
          exact hp rfl
        by_cases hdel : absentDelta desired (buildTagDict response) = []
        · rw [run_absent_empty name desired response hne hdel]
          refine ⟨by simp [isMutating], ?_, ?_, ?_⟩
          · rintro ⟨⟨n, e, hmem⟩, -⟩
            simp at hmem
          · intro n e hmem
            simp at hmem
          · intro n ks hmem
            simp at hmem
        · rw [run_absent_nonempty name desired response hne hdel]
          refine ⟨by simp [List.countP_cons, isMutating], ?_, ?_, ?_⟩
          · rintro ⟨⟨n, e, hmem⟩, -⟩
            simp at hmem
          · intro n e hmem
            simp at hmem
          · intro n ks hmem
            simpa using hdel

/-- Case analysis on the outcome/trace shapes `run` can produce. -/
theorem run_shape (name : String) (mode : Mode) (tags : Option TagSet)
    (response : List RawTag) :
    (mode = Mode.list ∧ run name mode tags response =
        (Outcome.exited false none (some (buildTagDict response)),
         [RemoteCall.describeTags name])) ∨
    (∃ m, run name mode tags response =
        (Outcome.failed m, [RemoteCall.describeTags name])) ∨
    (∃ m, run name mode tags response =
        (Outcome.exited false (some m) none, [RemoteCall.describeTags name])) ∨
    (∃ m, run name mode tags response =
        (Outcome.exited true (some m) none,
         [RemoteCall.describeTags name,
          RemoteCall.addTags name (presentDelta (tags.getD []) (buildTagDict response))])) ∨
    (∃ m, run name mode tags response =
        (Outcome.exited true (some m) none,
         [RemoteCall.describeTags name,
          RemoteCall.removeTags name
            ((absentDelta (tags.getD []) (buildTagDict response)).map Prod.fst)])) := by
  cases mode with
  | list =>
      exact Or.inl ⟨rfl, run_list_eq name tags response⟩
  | present =>
      by_cases hp : tagsProvided tags = false
      · exact Or.inr (Or.inl ⟨_, run_present_fail name tags response hp⟩)
      · obtain ⟨desired, rfl⟩ : ∃ d, tags = some d := by
          cases tags with
          | none => exact absurd rfl hp
          | some d => exact ⟨d, rfl⟩
        have hne : desired ≠ [] := by
          intro h
          subst h
          exact hp rfl
        by_cases hdel : presentDelta desired (buildTagDict response) = []
        · exact Or.inr (Or.inr (Or.inl ⟨_, run_present_empty name desired response hne hdel⟩))
        · exact Or.inr (Or.inr (Or.inr (Or.inl
            ⟨"Tags " ++ tagsMsg (presentDelta desired (buildTagDict response)) ++
               " created for ELB " ++ name ++ ".",
             run_present_nonempty name desired response hne hdel⟩)))
  | absent =>
      by_cases hp : tagsProvided tags = false
      · exact Or.inr (Or.inl ⟨_, run_absent_fail name tags response hp⟩)
      · obtain ⟨desired, rfl⟩ : ∃ d, tags = some d := by
          cases tags with
          | none => exact absurd rfl hp
          | some d => exact ⟨d, rfl⟩
        have hne : desired ≠ [] := by
          intro h
          subst h
          exact hp rfl
        by_cases hdel : absentDelta desired (buildTagDict response) = []
        · exact Or.inr (Or.inr (Or.inl ⟨_, run_absent_empty name desired response hne hdel⟩))
        · exact Or.inr (Or.inr (Or.inr (Or.inr
            ⟨"Tags " ++ tagsMsg (absentDelta desired (buildTagDict response)) ++
               " removed for ELB " ++ name ++ ".",
             run_absent_nonempty name desired response hne hdel⟩)))

/-- C5: for every invocation, if it exits then `changed = true` iff a
mutating call appears in the trace, and the `tags` field of the result is
populated only in List mode; a failed invocation's trace holds no mutating
call. -/
theorem changed_iff_mutating_call (name : String) (mode : Mode) (tags : Option TagSet)
    (response : List RawTag) :
    (∀ ch m tg, (run name mode tags response).1 = Outcome.exited ch m tg →
      ((ch = true ↔ ∃ c ∈ (run name mode tags response).2, isMutating c = true) ∧
       (tg ≠ none → mode = Mode.list))) ∧
    (∀ m, (run name mode tags response).1 = Outcome.failed m →
      ∀ c ∈ (run name mode tags response).2, isMutating c = false) := by
  rcases run_shape name mode tags response with
    ⟨hm, h⟩ | ⟨m, h⟩ | ⟨m, h⟩ | ⟨m, h⟩ | ⟨m, h⟩ <;> rw [h]
  · constructor
    · intro ch m' tg he
      rw [Outcome.exited.injEq] at he
      refine ⟨?_, fun _ => hm⟩
      rw [← he.1]
      simp [isMutating]
    · intro m' he
      simp at he
  · constructor
    · intro ch m' tg he
      simp at he
    · intro m' he c hc
      simp only [List.mem_singleton] at hc
      subst hc
      rfl
  · constructor
    · intro ch m' tg he
      rw [Outcome.exited.injEq] at he
      refine ⟨?_, ?_⟩
      · rw [← he.1]
        simp [isMutating]
      · intro htg
        exact absurd he.2.2.symm htg
    · intro m' he
      simp at he
  · constructor
    · intro ch m' tg he
      rw [Outcome.exited.injEq] at he
      refine ⟨?_, ?_⟩
      · rw [← he.1]
        simp only [true_iff]
        exact ⟨RemoteCall.addTags name (presentDelta (tags.getD []) (buildTagDict response)),
          by simp, rfl⟩
      · intro htg
        exact absurd he.2.2.symm htg
    · intro m' he
      simp at he
  · constructor
    · intro ch m' tg he
      rw [Outcome.exited.injEq] at he
      refine ⟨?_, ?_⟩
      · rw [← he.1]
        simp only [true_iff]
        exact ⟨RemoteCall.removeTags name
            ((absentDelta (tags.getD []) (buildTagDict response)).map Prod.fst),
          by simp, rfl⟩
      · intro htg
        exact absurd he.2.2.symm htg
    · intro m' he
      simp at he

/-- C10: every mutating payload is drawn from the caller's desired tags —
each pair sent to `AddTags` is a pair of `desired`, and each key sent to
`RemoveTags` is a key of `desired` whose desired value matches the current
value. -/
theorem payload_from_desired (name : String) (mode : Mode) (tags : Option TagSet)
    (response : List RawTag) :
    (∀ n e, RemoteCall.addTags n e ∈ (run name mode tags response).2 →
      ∀ p ∈ e, p ∈ tags.getD []) ∧
    (∀ n ks, RemoteCall.removeTags n ks ∈ (run name mode tags response).2 →
      ∀ k ∈ ks, ∃ v, (k, v) ∈ tags.getD [] ∧ (k, v) ∈ buildTagDict response) := by
  rcases run_shape name mode tags response with
    ⟨hm, h⟩ | ⟨m, h⟩ | ⟨m, h⟩ | ⟨m, h⟩ | ⟨m, h⟩ <;> rw [h]
  · exact ⟨fun n e hmem => by simp at hmem, fun n ks hmem => by simp at hmem⟩
  · exact ⟨fun n e hmem => by simp at hmem, fun n ks hmem => by simp at hmem⟩
  · exact ⟨fun n e hmem => by simp at hmem, fun n ks hmem => by simp at hmem⟩
  · constructor
    · intro n e hmem p hp
      simp only [List.mem_cons, List.mem_singleton, List.not_mem_nil, or_false] at hmem
      rcases hmem with hmem | hmem
      · exact absurd hmem (by simp)
      · rw [RemoteCall.addTags.injEq] at hmem
        rw [hmem.2] at hp
        exact (List.mem_filter.mp hp).1
    · intro n ks hmem
      simp at hmem
  · constructor
    · intro n e hmem
      simp at hmem
    · intro n ks hmem k hk
      simp only [List.mem_cons, List.mem_singleton, List.not_mem_nil, or_false] at hmem
      rcases hmem with hmem | hmem
      · exact absurd hmem (by simp)
      · rw [RemoteCall.removeTags.injEq] at hmem
        rw [hmem.2] at hk
        rcases List.mem_map.mp hk with ⟨q, hq, hkq⟩
        have hmf := List.mem_filter.mp hq
        refine ⟨q.2, ?_, ?_⟩
        · rw [← hkq]
          simpa using hmf.1
        · rw [← hkq]
          have := hmf.2
          simp only [decide_eq_true_eq] at this
          simpa using this

/-- C9: building the current TagSet from the describe response silently
drops every tag object lacking a `Key` attribute — the result is unchanged
by pre-filtering keyless tags, and every entry of the result traces back to
a response tag that carried a `Key` (with its value). -/
theorem keyless_tags_dropped (raw : List RawTag) :
    buildTagDict raw = buildTagDict (raw.filter (fun t => t.key.isSome)) ∧
    (∀ p ∈ buildTagDict raw, ∃ t ∈ raw, t.key = some p.1 ∧ t.value = p.2) := by
  constructor
  · unfold buildTagDict
    generalize ([] : TagSet) = acc
    induction raw generalizing acc with
    | nil => rfl
    | cons t rest ih =>
        cases hk : t.key with
        | none => simp [hk, ih]
        | some k => simp [hk, ih]
  · have main : ∀ (l : List RawTag) (acc : TagSet), ∀ p ∈ l.foldl
        (fun acc t =>
          match t.key with
          | some k => dictInsert acc k t.value
          | none => acc) acc,
        p ∈ acc ∨ ∃ t ∈ l, t.key = some p.1 ∧ t.value = p.2 := by
      intro l
      induction l with
      | nil => intro acc p hp; exact Or.inl hp
      | cons t rest ih =>
          intro acc p hp
          simp only [List.foldl_cons] at hp
          rcases ih _ p hp with hacc | ⟨u, hu, he⟩
          · cases hk : t.key with
            | none =>
                rw [hk] at hacc
                exact Or.inl hacc
            | some k =>
                rw [hk] at hacc
                rcases mem_dictInsert_elim _ k t.value p hacc with he | he
                · refine Or.inr ⟨t, by simp, ?_, ?_⟩
                  · rw [hk, he]
                  · rw [he]
                · exact Or.inl he
          · exact Or.inr ⟨u, by simp [hu], he⟩
    intro p hp
    rcases main raw [] p hp with h | h
    · simp at h
    · exact h

/-! ### Convergence of the deltas after the mutation is applied -/

theorem presentDelta_after_add (desired : TagSet) (hdn : (desired.map Prod.fst).Nodup)
    (st : TagSet) :
    presentDelta desired
      ((presentDelta desired st).foldl (fun acc p => dictInsert acc p.1 p.2) st) = [] := by
  simp only [presentDelta]
  rw [List.filter_eq_nil_iff]
  intro p hp
  simp only [decide_eq_true_eq, not_not]
  by_cases hmem : p ∈ desired.filter (fun p => decide (p ∉ st))
  · exact mem_foldl_dictInsert_self _ _
      (keys_filter_nodup desired (fun p => decide (p ∉ st)) hdn) p hmem
  · have hpst : p ∈ st := by
      by_contra hnot
      exact hmem (List.mem_filter.mpr ⟨hp, by simpa using hnot⟩)
    refine mem_foldl_dictInsert_of_ne _ _ p hpst ?_
    intro q hq he
    have hqd := List.mem_filter.mp hq
    have hqp : q = p := nodup_keys_pair_eq q p he desired hdn hqd.1 hp
    subst hqp
    exact (by simpa using hqd.2 : q ∉ st) hpst

theorem absentDelta_after_remove (desired st : TagSet) :
    absentDelta desired
      (st.filter (fun p => decide (p.1 ∉ (absentDelta desired st).map Prod.fst))) = [] := by
  simp only [absentDelta]
  rw [List.filter_eq_nil_iff]
  intro p hp
  simp only [decide_eq_true_eq]
  intro hmem
  have h1 := List.mem_filter.mp hmem
  have h2 : p ∈ desired.filter (fun p => decide (p ∈ st)) :=
    List.mem_filter.mpr ⟨hp, by simpa using h1.1⟩
  have h3 : p.1 ∈ (desired.filter (fun p => decide (p ∈ st))).map Prod.fst :=
    List.mem_map.mpr ⟨p, h2, rfl⟩
  exact (by simpa using h1.2 : p.1 ∉ (desired.filter (fun p => decide (p ∈ st))).map Prod.fst) h3

/-- C6 counterexample: with `desired = {A: "1"}` and the remote already
holding `{A: "1"}`, the FIRST Present-mode run reports `changed = false`,
refuting "changed=true on the first run" for arbitrary initial tags. -/
theorem idempotence_first_run_cex :
    (runOnState "elb" Mode.present (some [("A", "1")]) [("A", "1")]).1 =
      Outcome.exited false (some "Tags already exist in elb.") none := by
  decide

/-- C6 amended: under no external changes, with the first run's mutation
applied to the remote state, the SECOND run always reports
`changed = false`; the first run reports `changed = true` exactly when its
computed delta is non-empty (not unconditionally). -/
theorem reconcile_idempotent (name : String) (mode : Mode) (desired st : TagSet)
    (hmode : mode ≠ Mode.list) (hne : desired ≠ [])
    (hdn : (desired.map Prod.fst).Nodup) (hsn : (st.map Prod.fst).Nodup) :
    (∃ m, (runOnState name mode (some desired)
        (runOnState name mode (some desired) st).2.2).1 =
      Outcome.exited false (some m) none) ∧
    (∀ ch m tg, (runOnState name mode (some desired) st).1 = Outcome.exited ch m tg →
      (ch = true ↔
        (if mode = Mode.present then presentDelta desired st ≠ []
         else absentDelta desired st ≠ []))) := by
  have hcur : buildTagDict (stateToResponse st) = st := buildTagDict_response st hsn
  cases mode with
  | list => exact absurd rfl hmode
  | present =>
      by_cases hdel : presentDelta desired st = []
      · have h1 := run_present_empty name desired (stateToResponse st) hne
          (by rw [hcur]; exact hdel)
        constructor
        · refine ⟨"Tags already exist in " ++ name ++ ".", ?_⟩
          simp only [runOnState]
          rw [h1]
          simp only [applyCalls, applyCall, List.foldl_cons, List.foldl_nil]
          rw [h1]
        · intro ch m tg he
          simp only [runOnState] at he
          rw [h1] at he
          rw [Outcome.exited.injEq] at he
          rw [← he.1]
          simp [hdel]
      · have h1 := run_present_nonempty name desired (stateToResponse st) hne
          (by rw [hcur]; exact hdel)
        rw [hcur] at h1
        have hsn' : (((presentDelta desired st).foldl
            (fun acc p => dictInsert acc p.1 p.2) st).map Prod.fst).Nodup :=
          keys_foldl_dictInsert_nodup (presentDelta desired st) st hsn
        have hdel2 := presentDelta_after_add desired hdn st
        have h2 := run_present_empty name desired
          (stateToResponse ((presentDelta desired st).foldl
            (fun acc p => dictInsert acc p.1 p.2) st)) hne
          (by rw [buildTagDict_response _ hsn']; exact hdel2)
        constructor
        · refine ⟨"Tags already exist in " ++ name ++ ".", ?_⟩
          simp only [runOnState]
          rw [h1]
          simp only [applyCalls, applyCall, List.foldl_cons, List.foldl_nil]
          rw [h2]
        · intro ch m tg he
          simp only [runOnState] at he
          rw [h1] at he
          rw [Outcome.exited.injEq] at he
          rw [← he.1]
          simp [hdel]
  | absent =>
      by_cases hdel : absentDelta desired st = []
      · have h1 := run_absent_empty name desired (stateToResponse st) hne
          (by rw [hcur]; exact hdel)
        constructor
        · refine ⟨"Nothing to remove here. Move along.", ?_⟩
          simp only [runOnState]
          rw [h1]
          simp only [applyCalls, applyCall, List.foldl_cons, List.foldl_nil]
          rw [h1]
        · intro ch m tg he
          simp only [runOnState] at he
          rw [h1] at he
          rw [Outcome.exited.injEq] at he
          rw [← he.1]
          simp [hdel]
      · have h1 := run_absent_nonempty name desired (stateToResponse st) hne
          (by rw [hcur]; exact hdel)
        rw [hcur] at h1
        have hsn' : ((st.filter
            (fun p => decide (p.1 ∉ (absentDelta desired st).map Prod.fst))).map
              Prod.fst).Nodup :=
          keys_filter_nodup st _ hsn
        have hdel2 := absentDelta_after_remove desired st
        have h2 := run_absent_empty name desired
          (stateToResponse (st.filter
            (fun p => decide (p.1 ∉ (absentDelta desired st).map Prod.fst)))) hne
          (by rw [buildTagDict_response _ hsn']; exact hdel2)
        constructor
        · refine ⟨"Nothing to remove here. Move along.", ?_⟩
          simp only [runOnState]
          rw [h1]
          simp only [applyCalls, applyCall, List.foldl_cons, List.foldl_nil]
          rw [h2]
        · intro ch m tg he
          simp only [runOnState] at he
          rw [h1] at he
          rw [Outcome.exited.injEq] at he
          rw [← he.1]
          simp [hdel]

/-- Witness for the amended C6 at Present mode, `desired = {A: "1"}`,
starting from an empty remote state. -/
theorem reconcile_idempotent_witness :
    ∃ m, (runOnState "elb" Mode.present (some [("A", "1")])
        (runOnState "elb" Mode.present (some [("A", "1")]) []).2.2).1 =
      Outcome.exited false (some m) none :=
  (reconcile_idempotent "elb" Mode.present [("A", "1")] [] (by decide) (by decide)
    (by decide) (by decide)).1
